import Mathlib

/-!
Shallow embedding of `idx_value_30.py` (class `IDXVAL30`), the IDXV30 index
construction pipeline, together with theorems settling the frozen claims.

Modelling conventions, used throughout:

* Python/numpy floating point numbers are modelled as exact rationals (`ℚ`).
  IEEE NaN (which arises in this program from `0.0/0.0` style divisions inside
  numpy) is modelled by `Option ℚ` (`none` = NaN); numpy division by zero is
  collapsed to NaN.  Comparisons with NaN are `False`, as in IEEE, which is
  what the pandas filters `df[col] > cap` rely on.
* `np.round(x, d)` rounds half to even; `rnd`/`roundTo` below reproduce that.
* `np.std` takes a real square root.  The square root is abstracted as a
  function parameter `sq : ℚ → ℚ` of the scoring stage; the only property of
  the float `sqrt` used by any theorem is `sqrt 0 = 0`, which is exact.
* Python exceptions (`KeyError` from a missing dict field or a missing
  DataFrame column, `IndexError` from `iloc`, `ZeroDivisionError`,
  `ValueError` from `list.index`) are modelled with `Except PipeErr`.
  `PipeErr.marketDataUnavailable` is modelled from the spec (§7): the error
  surface the spec prescribes for a market-data failure during weighting; the
  source has no such error, which is what claim C8 is about.
* pandas `sort_values` is modelled as a stable sort, realised by sorting
  (position, row) pairs with a total lexicographic relation (tie on the key
  falls back to the original position).  For rows whose key is NaN, pandas
  `nargsort` places them last, in original order, which the relation below
  reproduces exactly.
* The unbounded `while True` capping loop is modelled by the fuel-indexed
  `capIter`; exhausted fuel returns `PipeErr.outOfFuel`, so an `.ok` result
  of `capIter` corresponds exactly to actual termination of the source loop.
-/

namespace IDXV30

/-- A float-like value: `none` models IEEE NaN. -/
abbrev Flt := Option ℚ

/-- Float subtraction with NaN propagation. -/
def fadd : Flt → Flt → Flt
  | some a, some b => some (a + b)
  | _, _ => none

/-- Float division: division by zero yields NaN (numpy semantics inside
pandas column arithmetic), NaN propagates. -/
def fdiv : Flt → Flt → Flt
  | some a, some b => if b = 0 then none else some (a / b)
  | _, _ => none

/-- Comparison `x > c` for a float-like value: `NaN > c` is `False` (IEEE). -/
def fgt (x : Flt) (c : ℚ) : Bool :=
  match x with
  | some a => decide (c < a)
  | none => false

/-- Round to the nearest integer, ties to even: the rounding mode of
`np.round`. -/
def rnd (x : ℚ) : ℤ :=
  if x - (Int.floor x : ℚ) < 1 / 2 then Int.floor x
  else if 1 / 2 < x - (Int.floor x : ℚ) then Int.floor x + 1
  else if 2 ∣ Int.floor x then Int.floor x else Int.floor x + 1

/-- Model of `np.round (x, d)`: round to `d` decimal places, ties to even. -/
def roundTo (d : ℕ) (x : ℚ) : ℚ := (rnd (x * 10 ^ d) : ℚ) / 10 ^ d

/-- Model of `np.round` on a float-like value: NaN rounds to NaN. -/
def fround (d : ℕ) : Flt → Flt
  | some a => some (roundTo d a)
  | none => none

/-- A ticker's `info` dictionary from the market-data provider: an association
list from field name to (numeric) value; an absent key models both a lookup
error and an absent field. -/
abbrev Info := List (String × ℚ)

/-- Dictionary lookup, `info[key]` as an `Option`. -/
def lookupField (info : Info) (k : String) : Option ℚ :=
  (info.find? (fun p => p.1 == k)).map (fun p => p.2)

/-- One row of the input universe: the raw ticker code from the csv
(`Kode` column) and the provider's info dictionary for the adjusted ticker. -/
structure Entry where
  code : String
  info : Info
  deriving DecidableEq

/-- The input universe (the idx80 list together with the provider data). -/
abbrev Universe := List Entry

/-- Ticker adjustment `_adjust_ticker`: append the `.JK` suffix. -/
def adjTicker (s : String) : String := s ++ ".JK"

/-- Exceptions that the modelled pipeline can surface.
`marketDataUnavailable` is modelled from the spec (§7) only: the source never
produces it. -/
inductive PipeErr where
  | keyError (field : String)
  | indexError
  | valueError
  | zeroDivisionError
  | outOfFuel
  | marketDataUnavailable (ticker : String)
  deriving DecidableEq

/-- The payload string of an error (the argument of the Python exception). -/
def errPayload : PipeErr → String
  | .keyError f => f
  | .marketDataUnavailable t => t
  | _ => ""

/-- Whether an error is the spec's `MarketDataUnavailable` condition. -/
def isMDU : PipeErr → Bool
  | .marketDataUnavailable _ => true
  | _ => false

/-- One row of `selection_df` after `_generate_df_factors`. -/
structure Row where
  ticker : String
  pe : ℚ
  pbv : ℚ
  deriving DecidableEq

/-- Factor build `_generate_df_factors`: for each universe entry query the two factors;
a failed lookup is swallowed (`try/except` → NaN) and the row is removed by
`dropna`; surviving rows are re-indexed densely, keeping their order.
The function is total: no provider error propagates. -/
def generateDfFactors (u : Universe) : List Row :=
  u.filterMap (fun e =>
    match lookupField e.info "trailingPE", lookupField e.info "priceToBook" with
    | some pe, some pbv => some ⟨adjTicker e.code, pe, pbv⟩
    | _, _ => none)

/-- The stable descending order used by
`win_factor.sort_values(ascending=False)` on (position, value) pairs:
larger values first, ties by original position. -/
def winsRel (p q : ℕ × ℚ) : Prop := q.2 < p.2 ∨ (p.2 = q.2 ∧ p.1 ≤ q.1)

instance : DecidableRel winsRel := fun p q => by
  unfold winsRel; infer_instance

instance : IsTotal (ℕ × ℚ) winsRel where
  total p q := by
    rcases lt_trichotomy p.2 q.2 with h | h | h
    · exact Or.inr (Or.inl h)
    · rcases Nat.le_total p.1 q.1 with h1 | h1
      · exact Or.inl (Or.inr ⟨h, h1⟩)
      · exact Or.inr (Or.inr ⟨h.symm, h1⟩)
    · exact Or.inl (Or.inl h)

instance : IsTrans (ℕ × ℚ) winsRel where
  trans p q s hpq hqs := by
    rcases hpq with h1 | ⟨h1, h1i⟩ <;> rcases hqs with h2 | ⟨h2, h2i⟩
    · exact Or.inl (h2.trans h1)
    · exact Or.inl (h2 ▸ h1)
    · exact Or.inl (h1 ▸ h2)
    · exact Or.inr ⟨h1.trans h2, h1i.trans h2i⟩

/-- The series `win_factor.sort_values(ascending = False)`: the column paired
with its original index, in stable descending value order. -/
def winsSorted (v : List ℚ) : List (ℕ × ℚ) := (v.enum).insertionSort winsRel

/-- The descending-sorted column values. -/
def winsVals (v : List ℚ) : List ℚ := (winsSorted v).map Prod.snd

/-- Lower tail size `lb = int(alpha * nticker)`: Python `int()` truncation (= floor, the
argument being non-negative). -/
def lbOf (alpha : ℚ) (n : ℕ) : ℕ := (Int.floor (alpha * (n : ℚ))).toNat

/-- Upper cutoff rank `ub = int((1 - alpha) * nticker)`. -/
def ubOf (alpha : ℚ) (n : ℕ) : ℕ := (Int.floor ((1 - alpha) * (n : ℚ))).toNat

/-- The body of `_winsorisation` for one factor column, in rank space:
positions `[0, lb)` of the descending-sorted series are overwritten with the
value at fixed position 3 (`win_factor.iloc[3]`), positions `[ub, n)` with
the value at position `ub`.  `iloc[3]` (evaluated first, on the right-hand
side of the assignment) raises `IndexError` when the column has fewer than 4
rows. Returns the modified series as (original index, value) pairs in rank
order. -/
def winsModified (alpha : ℚ) (v : List ℚ) : Except PipeErr (List (ℕ × ℚ)) :=
  match (winsVals v).get? 3 with
  | none => .error .indexError
  | some s3 =>
    match (winsVals v).get? (ubOf alpha v.length) with
    | none => .error .indexError
    | some sub =>
      .ok ((winsSorted v).enum.map (fun ri =>
        (ri.2.1, if ri.1 < lbOf alpha v.length then s3
          else if ubOf alpha v.length ≤ ri.1 then sub else ri.2.2)))

/-- Winsorisation `_winsorisation` for one column: the modified series realigned to the
original row order (`self.selection_df[factor+'_wins'] = win_factor` aligns
by index).  The `getD 0` default is unreachable: every original index occurs
exactly once among the pairs. -/
def winsCol (alpha : ℚ) (v : List ℚ) : Except PipeErr (List ℚ) :=
  (winsModified alpha v).map (fun ps =>
    (List.range v.length).map (fun i =>
      (((ps.find? (fun p => p.1 == i)).map Prod.snd)).getD 0))

/-- Model of `np.mean`. -/
def meanQ (l : List ℚ) : ℚ := l.sum / (l.length : ℚ)

/-- The population variance; `np.std l = Real.sqrt (varQ l)`. -/
def varQ (l : List ℚ) : ℚ := meanQ (l.map (fun x => (x - meanQ l) ^ 2))

/-- Standardisation `_zscore` for one winsorised column: `(x - mean) / std` with
`std = sq (varQ l)` where `sq` abstracts the float square root
(`sq 0 = 0` is the only property of `sqrt` any theorem uses).  The division
is unguarded exactly as in the source; a zero standard deviation produces
NaN in every entry. -/
def zscoreCol (sq : ℚ → ℚ) (l : List ℚ) : List Flt :=
  l.map (fun x => fdiv (some (x - meanQ l)) (some (sq (varQ l))))

/-- Aggregation `_agg_zscore`: the composite score column, `(z_PE + z_PBV) / 2`
(sum over the `_zscore` columns divided by their number). -/
def aggCol (z1 z2 : List Flt) : List Flt :=
  List.zipWith (fun a b => fdiv (fadd a b) (some 2)) z1 z2

/-- One row of `selection_df` at selection time, with all derived columns. -/
structure SRow where
  ticker : String
  pe : ℚ
  pbv : ℚ
  peW : ℚ
  pbvW : ℚ
  zPe : Flt
  zPbv : Flt
  agg : Flt
  deriving DecidableEq

/-- Reassemble the scored DataFrame from its columns. -/
def buildSRows : List Row → List ℚ → List ℚ → List Flt → List Flt → List Flt → List SRow
  | r :: rs, a :: as, b :: bs, c :: cs, d :: ds, e :: es =>
    ⟨r.ticker, r.pe, r.pbv, a, b, c, d, e⟩ :: buildSRows rs as bs cs ds es
  | _, _, _, _, _, _ => []

/-- Ascending order on composite scores with NaN placed last
(`sort_values` / `nargsort` semantics). -/
def fltLt : Flt → Flt → Prop
  | some a, some b => a < b
  | some _, none => True
  | none, _ => False

instance : DecidableRel fltLt := fun a b => by
  cases a <;> cases b <;> unfold fltLt <;> infer_instance

/-- The order `sort_values(by='agg_score')` realises on (position, row)
pairs: ascending by score with NaN last, ties by original position. -/
def selRel (p q : ℕ × SRow) : Prop :=
  fltLt p.2.agg q.2.agg ∨ (p.2.agg = q.2.agg ∧ p.1 ≤ q.1)

instance : DecidableRel selRel := fun p q => by
  unfold selRel; infer_instance

instance : IsTotal (ℕ × SRow) selRel where
  total p q := by
    unfold selRel
    cases ha : p.2.agg with
    | none => cases hb : q.2.agg with
      | none =>
        rcases Nat.le_total p.1 q.1 with h | h
        · exact Or.inl (Or.inr ⟨rfl, h⟩)
        · exact Or.inr (Or.inr ⟨rfl, h⟩)
      | some b => exact Or.inr (Or.inl trivial)
    | some a => cases hb : q.2.agg with
      | none => exact Or.inl (Or.inl trivial)
      | some b =>
        rcases lt_trichotomy a b with h | h | h
        · exact Or.inl (Or.inl h)
        · subst h
          rcases Nat.le_total p.1 q.1 with h1 | h1
          · exact Or.inl (Or.inr ⟨rfl, h1⟩)
          · exact Or.inr (Or.inr ⟨rfl, h1⟩)
        · exact Or.inr (Or.inl h)

instance : IsTrans (ℕ × SRow) selRel where
  trans p q s hpq hqs := by
    unfold selRel at *
    rcases hpq with h1 | ⟨h1, h1i⟩ <;> rcases hqs with h2 | ⟨h2, h2i⟩
    · left
      cases ha : p.2.agg <;> cases hb : q.2.agg <;> cases hc : s.2.agg <;>
        simp_all [fltLt] <;> linarith
    · left; rw [← h2]; exact h1
    · left; rw [h1]; exact h2
    · right; exact ⟨h1.trans h2, h1i.trans h2i⟩

/-- Selection `_select_stocks`: sort by composite score and keep the first 30 rows.
The `nstocks` parameter exists in the source but its body uses the literal
`30` (`[:30]`), so the parameter is ignored. -/
def selectStocks (nstocks : ℕ) (rows : List SRow) : List SRow :=
  (((rows.enum).insertionSort selRel).map Prod.snd).take 30

/-- Free-float market cap `_weight` of one ticker,
`info['marketCap'] * info['floatShares'] / info['sharesOutstanding']`.
Missing fields raise `KeyError` (first `marketCap`, then the two share
fields); a zero `sharesOutstanding` raises `ZeroDivisionError`.  Neither is
caught anywhere in the weighting stage. -/
def weightOf (info : Info) : Except PipeErr ℚ :=
  match lookupField info "marketCap" with
  | none => .error (.keyError "marketCap")
  | some mc =>
    match lookupField info "floatShares" with
    | none => .error (.keyError "floatShares")
    | some fs =>
      match lookupField info "sharesOutstanding" with
      | none => .error (.keyError "sharesOutstanding")
      | some so =>
        if so = 0 then .error .zeroDivisionError else .ok (mc * (fs / so))

/-- The per-ticker fetch loop of `_get_each_weight`: look each selected
ticker up among the queried symbols (`list.index` + positional access) and
compute its free-float market cap; the first failure aborts the run. -/
def fetchMc (u : Universe) : List String → Except PipeErr (List ℚ)
  | [] => .ok []
  | t :: ts =>
    match u.find? (fun e => adjTicker e.code == t) with
    | none => .error .valueError
    | some e =>
      match weightOf e.info with
      | .error er => .error er
      | .ok m => (fetchMc u ts).map (fun ms => m :: ms)

/-- Raw weight column `mc_weight`: raw weights `np.round(mc / mc.sum(), 2)`. -/
def mcWeights (mc : List ℚ) : List Flt :=
  mc.map (fun m => fround 2 (fdiv (some m) (some mc.sum)))

/-- The rows `selected_stocks.loc[mc_weight > limit]`, as
(row label, `adj_mc` value) pairs: at the time this slice is taken the last
column of the frame is `adj_mc` (equal to `mc`), which is what `rows[-1]`
reads in the first `_limit_cap` call. -/
def overSnapMc (cap : ℚ) (mcW : List Flt) (adjMc : List ℚ) : List (ℕ × ℚ) :=
  (List.range mcW.length).filterMap (fun i =>
    (mcW.get? i).bind (fun x =>
      if fgt x cap then (adjMc.get? i).map (fun v => (i, v)) else none))

/-- The rows `selected_stocks.loc[adj_mc_weight > limit]`, as
(row label, `adj_mc_weight` value) pairs: from the second iteration on the
last column of the frame is `adj_mc_weight`, so `rows[-1]` reads the rounded
weight, not `adj_mc`. -/
def overSnapW (cap : ℚ) (w : List Flt) : List (ℕ × ℚ) :=
  (List.range w.length).filterMap (fun i =>
    (w.get? i).bind (fun x => x.bind (fun a =>
      if cap < a then some (i, a) else none)))

/-- The update loop of `_limit_cap`: every over-cap row's `adj_mc` is
overwritten with `(1/n_over) * rows[-1]` where `rows[-1]` is the snapshot's
last column (`snap` carries those values). -/
def limitCapAdj (snap : List (ℕ × ℚ)) (adjMc : List ℚ) : List ℚ :=
  snap.foldl (fun acc p => acc.set p.1 ((1 / (snap.length : ℚ)) * p.2)) adjMc

/-- The full `_limit_cap` body: the updated `adj_mc` column together with the
recomputed `adj_mc_weight` column `np.round(adj_mc / adj_mc.sum(), 3)`.
(The source also computes `adjust_rate = n_over*limit/(1-n_over*limit)` and a
pooled `mc_s` from the non-over rows, but both are dead: the loop's first
statement overwrites `mc_s` with `rows[-1]`, so they are omitted here.) -/
def limitCap (cap : ℚ) (snap : List (ℕ × ℚ)) (adjMc : List ℚ) :
    List ℚ × List Flt :=
  (limitCapAdj snap adjMc,
   (limitCapAdj snap adjMc).map (fun a =>
     fround 3 (fdiv (some a) (some (limitCapAdj snap adjMc).sum))))

/-- The `while True` capping loop of `_get_each_weight`, fuel-indexed:
call `_limit_cap`, stop when no `adj_mc_weight` exceeds the cap, otherwise
recompute the over-cap snapshot (now carrying `adj_mc_weight` values) and
repeat.  Exhausted fuel models the loop still running. -/
def capIter (cap : ℚ) : ℕ → List (ℕ × ℚ) → List ℚ → Except PipeErr (List Flt)
  | 0, _, _ => .error .outOfFuel
  | f + 1, snap, adjMc =>
    let st := limitCap cap snap adjMc
    if (overSnapW cap st.2).isEmpty then .ok st.2
    else capIter cap f (overSnapW cap st.2) st.1

/-- One iteration of the capping loop as a state transformer on
(`adj_mc` column, over-cap snapshot), for reasoning about the loop's orbit. -/
def capStep (cap : ℚ) (p : List ℚ × List (ℕ × ℚ)) : List ℚ × List (ℕ × ℚ) :=
  let st := limitCap cap p.2 p.1
  (st.1, overSnapW cap st.2)

/-- The `adj_mc_weight` column that an iteration of the loop computes from a
given state. -/
def capWeights (cap : ℚ) (p : List ℚ × List (ℕ × ℚ)) : List Flt :=
  (limitCap cap p.2 p.1).2

/-- The result of `_get_each_weight`: the `adj_mc_weight` column exists only
if the capping loop ran (`adjW = none` models the absent column). -/
structure WOut where
  tickers : List String
  mc : List ℚ
  mcW : List Flt
  adjW : Option (List Flt)
  deriving DecidableEq

/-- Weighting stage `_get_each_weight`: fetch free-float market caps, compute rounded raw
weights, and run the capping loop only when some raw weight exceeds the
limit; otherwise no `adj_mc` / `adj_mc_weight` columns are ever created. -/
def getEachWeight (cap : ℚ) (fuel : ℕ) (u : Universe) (sel : List String) :
    Except PipeErr WOut :=
  match fetchMc u sel with
  | .error e => .error e
  | .ok mc =>
    if (mcWeights mc).any (fun x => fgt x cap) then
      match capIter cap fuel (overSnapMc cap (mcWeights mc) mc) mc with
      | .error e => .error e
      | .ok w => .ok ⟨sel, mc, mcWeights mc, some w⟩
    else .ok ⟨sel, mc, mcWeights mc, none⟩

/-- Stages `_generate_df_factors` through `_agg_zscore`: build the scored table. -/
def rowsToScored (sq : ℚ → ℚ) (tbl : List Row) : Except PipeErr (List SRow) :=
  match winsCol (5 / 100) (tbl.map Row.pe) with
  | .error e => .error e
  | .ok wpe =>
    match winsCol (5 / 100) (tbl.map Row.pbv) with
    | .error e => .error e
    | .ok wpbv =>
      .ok (buildSRows tbl wpe wpbv (zscoreCol sq wpe) (zscoreCol sq wpbv)
        (aggCol (zscoreCol sq wpe) (zscoreCol sq wpbv)))

/-- The pipeline from the raw universe through `_select_stocks`. -/
def selectionStage (sq : ℚ → ℚ) (u : Universe) : Except PipeErr (List SRow) :=
  match rowsToScored sq (generateDfFactors u) with
  | .error e => .error e
  | .ok scored => .ok (selectStocks 30 scored)

/-- Entry point `generate_index`: run the whole pipeline and return
`selected_stocks[['ticker', 'adj_mc_weight']]`.  Selecting the
`adj_mc_weight` column raises `KeyError` when the capping loop never ran,
because only `_limit_cap` creates that column. -/
def generateIndex (sq : ℚ → ℚ) (fuel : ℕ) (u : Universe) :
    Except PipeErr (List (String × Flt)) :=
  match selectionStage sq u with
  | .error e => .error e
  | .ok sel =>
    match getEachWeight (15 / 100) fuel u (sel.map SRow.ticker) with
    | .error e => .error e
    | .ok wout =>
      match wout.adjW with
      | none => .error (.keyError "adj_mc_weight")
      | some w => .ok ((sel.map SRow.ticker).zip w)

/-- The float square root evaluated where the concrete runs need it:
`sqrt 0 = 0` exactly in IEEE arithmetic. -/
def sqZero : ℚ → ℚ := fun _ => 0

/-- The sum of a float-like column (`Series.sum` over the emitted weights). -/
def sumFlt (l : List Flt) : Flt := l.foldr fadd (some 0)

instance {ε α : Type} [DecidableEq ε] [DecidableEq α] : DecidableEq (Except ε α) := fun a b =>
  match a, b with
  | .error e, .error f => if h : e = f then .isTrue (by rw [h]) else .isFalse (by simp [h])
  | .ok x, .ok y => if h : x = y then .isTrue (by rw [h]) else .isFalse (by simp [h])
  | .error _, .ok _ => .isFalse (by simp)
  | .ok _, .error _ => .isFalse (by simp)

/-! ### Concrete inputs used by the counterexamples and witnesses -/

/-- A provider info dictionary with both factors and the three
market-cap fields. -/
def mkInfo (pe pbv mcv fs so : ℚ) : Info :=
  [("trailingPE", pe), ("priceToBook", pbv), ("marketCap", mcv),
   ("floatShares", fs), ("sharesOutstanding", so)]

/-- Seven identical tickers: every raw weight rounds to 0.14 ≤ 0.15, so the
capping loop is never entered. -/
def u7 : Universe :=
  [⟨"A1", mkInfo 5 2 100 50 100⟩, ⟨"A2", mkInfo 5 2 100 50 100⟩,
   ⟨"A3", mkInfo 5 2 100 50 100⟩, ⟨"A4", mkInfo 5 2 100 50 100⟩,
   ⟨"A5", mkInfo 5 2 100 50 100⟩, ⟨"A6", mkInfo 5 2 100 50 100⟩,
   ⟨"A7", mkInfo 5 2 100 50 100⟩]

/-- One ticker with both factors present: one row survives filtering. -/
def u1 : Universe := [⟨"A1", mkInfo 5 2 100 50 100⟩]

/-- Eight tickers whose first entry is missing `marketCap` (but has both
factors, so it is selected). -/
def u8 : Universe :=
  ⟨"A1", [("trailingPE", 5), ("priceToBook", 2), ("floatShares", 50),
          ("sharesOutstanding", 100)]⟩ ::
  (List.range 7).map (fun i => ⟨"B" ++ toString i, mkInfo 5 2 100 50 100⟩)

/-- Free-float market caps for the C9 witness universe. -/
def mc9 (i : ℕ) : ℚ := if i < 2 then 320 else 160

/-- Nine entries: `B0` is missing `trailingPE` and must be dropped; the
eight good tickers complete the pipeline (the loop caps the two big ones in
one iteration). -/
def u9 : Universe :=
  ⟨"B0", [("priceToBook", 2), ("marketCap", 100), ("floatShares", 1),
          ("sharesOutstanding", 1)]⟩ ::
  (List.range 8).map (fun i => ⟨"G" ++ toString i, mkInfo 5 2 (mc9 i) 1 1⟩)

/-- Free-float market caps for the C6 counterexample: 2 constituents of
1848, 20 of 294, 8 of 284 (total 11848). -/
def mcOf (i : ℕ) : ℚ := if i < 2 then 1848 else if i < 22 then 294 else 284

/-- The 30-ticker weight-stage universe of the C6 counterexample. -/
def u30 : Universe :=
  (List.range 30).map (fun i => ⟨"T" ++ toString i, mkInfo 5 2 (mcOf i) 1 1⟩)

/-- The selected tickers for `u30`, in order. -/
def sel30 : List String := (List.range 30).map (fun i => "T" ++ toString i ++ ".JK")

/-- The free-float market caps fetched for `u30`. -/
def mc30 : List ℚ := (List.range 30).map mcOf

/-- The weights the capping loop emits for `u30` (it stops after one
iteration): 0.092 twice, 0.029 twenty times, 0.028 eight times, summing to
0.988. -/
def w30 : List Flt :=
  (List.range 30).map (fun i =>
    if i < 2 then some (23 / 250) else if i < 22 then some (29 / 1000)
    else some (7 / 250))

/-- The `_get_each_weight` output for `u30`. -/
def out30 : WOut := ⟨sel30, mc30, mcWeights mc30, some w30⟩

/-- Four equal free-float market caps: every raw weight is 0.25. -/
def mc4 : List ℚ := [1, 1, 1, 1]

/-- The capping-loop state for `mc4` on entry to the loop. -/
def init4 : List ℚ × List (ℕ × ℚ) := (mc4, overSnapMc (15 / 100) (mcWeights mc4) mc4)

/-- The loop state for `mc4` after two iterations: a fixpoint of `capStep`. -/
def fix4 : List ℚ × List (ℕ × ℚ) :=
  ([1 / 16, 1 / 16, 1 / 16, 1 / 16], [(0, 1 / 4), (1, 1 / 4), (2, 1 / 4), (3, 1 / 4)])

/-- Four equal free-float market caps of 10: the raw weights are again 0.25
but now differ from the `adj_mc` values, separating the two columns that
`rows[-1]` can read. -/
def mc4x : List ℚ := [10, 10, 10, 10]

/-- First capping iteration for `mc4x`. -/
def c2it1 : List ℚ × List Flt :=
  limitCap (15 / 100) (overSnapMc (15 / 100) (mcWeights mc4x) mc4x) mc4x

/-- Second capping iteration for `mc4x`: its snapshot now carries
`adj_mc_weight` values. -/
def c2it2 : List ℚ × List Flt :=
  limitCap (15 / 100) (overSnapW (15 / 100) c2it1.2) c2it1.1

/-- Twenty distinct descending values for the C3 counterexample. -/
def v20 : List ℚ := (List.range 20).map (fun i => (20 : ℚ) - i)

/-- The scored table of `u7`: constant factor columns, hence zero variance
and NaN z-scores and composite scores throughout. -/
def srows7 : List SRow :=
  [⟨"A1.JK", 5, 2, 5, 2, none, none, none⟩, ⟨"A2.JK", 5, 2, 5, 2, none, none, none⟩,
   ⟨"A3.JK", 5, 2, 5, 2, none, none, none⟩, ⟨"A4.JK", 5, 2, 5, 2, none, none, none⟩,
   ⟨"A5.JK", 5, 2, 5, 2, none, none, none⟩, ⟨"A6.JK", 5, 2, 5, 2, none, none, none⟩,
   ⟨"A7.JK", 5, 2, 5, 2, none, none, none⟩]

/-- The scored table of `u8` (all factor columns constant, scores NaN). -/
def sel8 : List SRow :=
  ⟨"A1.JK", 5, 2, 5, 2, none, none, none⟩ ::
  (List.range 7).map (fun i => ⟨"B" ++ toString i ++ ".JK", 5, 2, 5, 2, none, none, none⟩)

/-- Two scored rows with distinct composite scores, for C7. -/
def rows2 : List SRow :=
  [⟨"A.JK", 1, 1, 1, 1, some 0, some 0, some 0⟩,
   ⟨"B.JK", 2, 2, 2, 2, some 1, some 1, some 1⟩]


/-! ### C4 -/

set_option maxRecDepth 10000 in
/-- C4: the pipeline does not survive a universe that leaves fewer than 4
rows after filtering: `_winsorisation` evaluates `win_factor.iloc[3]` and
raises `IndexError` (here: one surviving row). -/
theorem c4_small_universe_indexerror (sq : ℚ → ℚ) (fuel : ℕ) :
    generateIndex sq fuel u1 = .error .indexError := by
  with_unfolding_all rfl

set_option maxRecDepth 10000 in
/-- C4 witness: the failing run at concrete arguments. -/
theorem c4_small_universe_indexerror_witness :
    generateIndex sqZero 0 u1 = .error .indexError :=
  c4_small_universe_indexerror sqZero 0

/-! ### C1 -/

set_option maxRecDepth 10000 in
/-- C1: on a universe where no rounded raw weight exceeds the cap (seven
identical tickers), the capping loop is never entered — and `generate_index`
then raises `KeyError('adj_mc_weight')` instead of returning the raw-weight
table, because only `_limit_cap` ever creates that column. -/
theorem c1_no_cap_keyerror (sq : ℚ → ℚ) (fuel : ℕ) (h0 : sq 0 = 0) :
    generateIndex sq fuel u7 = .error (.keyError "adj_mc_weight") := by
  have e2 : winsCol (5/100) ((generateDfFactors u7).map Row.pe) = .ok [5,5,5,5,5,5,5] := by
    with_unfolding_all decide
  have e3 : winsCol (5/100) ((generateDfFactors u7).map Row.pbv) = .ok [2,2,2,2,2,2,2] := by
    with_unfolding_all decide
  have hv5 : varQ [5,5,5,5,5,5,5] = 0 := by with_unfolding_all decide
  have hv2 : varQ [2,2,2,2,2,2,2] = 0 := by with_unfolding_all decide
  have e4 : zscoreCol sq [5,5,5,5,5,5,5] = [none, none, none, none, none, none, none] := by
    unfold zscoreCol
    simp only [hv5, h0]
    decide
  have e5 : zscoreCol sq [2,2,2,2,2,2,2] = [none, none, none, none, none, none, none] := by
    unfold zscoreCol
    simp only [hv2, h0]
    decide
  have e6 : rowsToScored sq (generateDfFactors u7) = .ok srows7 := by
    unfold rowsToScored
    simp only [e2, e3, e4, e5]
    with_unfolding_all decide
  have e7 : selectionStage sq u7 = .ok (selectStocks 30 srows7) := by
    unfold selectionStage
    simp only [e6]
  unfold generateIndex
  simp only [e7]
  with_unfolding_all rfl

set_option maxRecDepth 10000 in
/-- C1 witness: the failing run evaluated at the concrete square root. -/
theorem c1_no_cap_keyerror_witness :
    sqZero 0 = 0 ∧ generateIndex sqZero 3 u7 = .error (.keyError "adj_mc_weight") :=
  ⟨rfl, c1_no_cap_keyerror sqZero 3 rfl⟩



/-! ### C5: non-termination of the capping loop -/

/-- State `fix4` is a fixpoint of the capping iteration. -/
theorem capStep_fix4 : capStep (15 / 100) fix4 = fix4 := by
  with_unfolding_all decide

/-- From the fixpoint the loop consumes all fuel without terminating. -/
theorem capIter_fix4 (f : ℕ) :
    capIter (15 / 100) f fix4.2 fix4.1 = .error .outOfFuel := by
  induction f with
  | zero => rfl
  | succ f ih => with_unfolding_all (exact ih)

/-- From the entry state of `mc4` the loop consumes all fuel. -/
theorem capIter_init4 (f : ℕ) :
    capIter (15 / 100) f init4.2 init4.1 = .error .outOfFuel := by
  match f with
  | 0 => rfl
  | 1 => with_unfolding_all decide
  | (f + 2) => with_unfolding_all (exact capIter_fix4 f)

set_option maxRecDepth 10000 in
/-- C5 counterexample: with four equal free-float market caps the capping
loop is entered (every raw weight rounds to 0.25 > 0.15) but never
terminates: `capIter` fails for every fuel bound, refuting the claim that
the loop always terminates. -/
theorem c5_counterexample :
    (mcWeights mc4).any (fun x => fgt x (15 / 100)) = true ∧
    ¬ ∃ f w, capIter (15 / 100) f init4.2 init4.1 = .ok w := by
  refine ⟨by with_unfolding_all decide, ?_⟩
  rintro ⟨f, w, h⟩
  rw [capIter_init4 f] at h
  exact Except.noConfusion h

set_option maxRecDepth 10000 in
/-- C5 amended: there are inputs on which the capping loop is entered and
never terminates; on four equal market caps the weight column every
iteration computes stays `[0.25, 0.25, 0.25, 0.25]` — the maximum adjusted
weight is constant, not decreasing — and no fuel bound makes the loop
stop. -/
theorem c5_amended :
    (mcWeights mc4).any (fun x => fgt x (15 / 100)) = true ∧
    (∀ k, capWeights (15 / 100) ((capStep (15 / 100))^[k] init4) =
      [some (1/4), some (1/4), some (1/4), some (1/4)]) ∧
    ¬ ∃ f w, capIter (15 / 100) f init4.2 init4.1 = .ok w := by
  refine ⟨by with_unfolding_all decide, ?_, ?_⟩
  · intro k
    match k with
    | 0 => with_unfolding_all decide
    | 1 => with_unfolding_all decide
    | (k + 2) =>
      have h2 : (capStep (15 / 100))^[k + 2] init4 =
          (capStep (15 / 100))^[k] ((capStep (15 / 100))^[2] init4) :=
        Function.iterate_add_apply _ k 2 init4
      have hfix2 : (capStep (15 / 100))^[2] init4 = fix4 := by
        with_unfolding_all decide
      rw [h2, hfix2, Function.iterate_fixed capStep_fix4 k]
      with_unfolding_all decide
  · rintro ⟨f, w, h⟩
    rw [capIter_init4 f] at h
    exact Except.noConfusion h



set_option maxRecDepth 10000 in
/-- C2 counterexample: with `mc = [10, 10, 10, 10]` the loop runs a second
iteration (all four weights are 0.25 > 0.15); over ticker 0's `adj_mc`
before that iteration is 5/2, yet its new `adj_mc` is 1/16 = (1/4)·0.25 —
`(1/n_over)` times its rounded *weight*, not `(1/n_over)·(5/2) = 5/8` as
the claim asserts for every iteration. -/
theorem c2_counterexample :
    (mcWeights mc4x).any (fun x => fgt x (15 / 100)) = true ∧
    c2it1.1 = [5/2, 5/2, 5/2, 5/2] ∧
    (overSnapW (15/100) c2it1.2).length = 4 ∧
    c2it2.1.get? 0 = some (1/16) ∧
    (1/16 : ℚ) ≠ (1 / (4:ℚ)) * (5/2) := by
  with_unfolding_all decide

set_option maxRecDepth 10000 in
/-- C3 counterexample: for the column `[20, 19, ..., 1]` with `alpha = 1/4`
(`lb = 5`), the winsorised value at rank 0 is 17 — the value at the fixed
rank 3 — which exceeds the value 15 at the cutoff rank `lb`, so a
winsorised value lies beyond the quantile cutoff. -/
theorem c3_counterexample :
    lbOf (1/4) v20.length = 5 ∧ ubOf (1/4) v20.length = 15 ∧
    (winsModified (1/4) v20).map (fun m => (m.map Prod.snd).get? 0) = .ok (some 17) ∧
    (winsVals v20).get? 5 = some 15 ∧ ¬ ((17:ℚ) ≤ 15) := by
  with_unfolding_all decide

set_option maxRecDepth 10000 in
/-- C6 counterexample: a 30-constituent run on which the capping loop
terminates with every weight under the cap but the emitted weights sum to
0.988, which is more than 0.01 away from 1.0. -/
theorem c6_counterexample :
    (getEachWeight (15/100) 5 u30 sel30).map
        (fun o => o.adjW.map (fun w => (sumFlt w, w.length, w.any (fun x => fgt x (15/100))))) =
      .ok (some (some (247/250), 30, false)) ∧
    ¬ (|1 - (247/250 : ℚ)| ≤ 1/100) := by
  constructor
  · with_unfolding_all decide
  · with_unfolding_all decide

/-- C7 counterexample: `_select_stocks` ignores its `nstocks` parameter;
with `nstocks = 1` on a 2-row table it returns 2 rows, not
`min 1 2 = 1`. -/
theorem c7_counterexample :
    (selectStocks 1 rows2).length ≠ min 1 rows2.length := by
  with_unfolding_all decide

set_option maxRecDepth 10000 in
/-- C8 counterexample: with `marketCap` missing for a selected ticker the
run fails with the provider's raw `KeyError('marketCap')`, which is not a
`MarketDataUnavailable` error and whose payload names the field, not the
offending ticker `A1.JK`. -/
theorem c8_counterexample :
    generateIndex sqZero 1 u8 = .error (.keyError "marketCap") ∧
    PipeErr.keyError "marketCap" ≠ .marketDataUnavailable "A1.JK" ∧
    errPayload (.keyError "marketCap") ≠ "A1.JK" := by
  refine ⟨by with_unfolding_all decide, by with_unfolding_all decide, by with_unfolding_all decide⟩



/-! ### C7 amended -/

/-- C7 amended: for every scored table and every `nstocks` argument, the
selected set has exactly `min 30 N` rows (the argument is ignored — the
body slices `[:30]`), is the prefix of a `selRel`-sorted permutation of the
indexed rows (ascending by composite score, NaN last, ties by original
position), and each selected row precedes every dropped row in that
order. -/
theorem c7_amended (k : ℕ) (rows : List SRow) :
    (selectStocks k rows).length = min 30 rows.length ∧
    ∃ ps : List (ℕ × SRow),
      ps.Perm rows.enum ∧ ps.Sorted selRel ∧
      selectStocks k rows = (ps.take 30).map Prod.snd ∧
      ∀ p ∈ ps.take 30, ∀ q ∈ ps.drop 30, selRel p q := by
  constructor
  · unfold selectStocks
    rw [List.length_take, List.length_map, List.length_insertionSort, List.enum_length]
  · refine ⟨(rows.enum).insertionSort selRel, List.perm_insertionSort _ _,
      List.sorted_insertionSort _ _, (List.map_take _ _ _).symm, ?_⟩
    intro p hp q hq
    have hsorted : List.Pairwise selRel ((rows.enum).insertionSort selRel) :=
      List.sorted_insertionSort _ _
    rw [← List.take_append_drop 30 ((rows.enum).insertionSort selRel)] at hsorted
    exact (List.pairwise_append.1 hsorted).2.2 p hp q hq

/-- C7 witness: the amended claim at the 2-row table with `nstocks = 1`. -/
theorem c7_amended_witness :
    (selectStocks 1 rows2).length = min 30 rows2.length ∧
    ∃ ps : List (ℕ × SRow),
      ps.Perm rows2.enum ∧ ps.Sorted selRel ∧
      selectStocks 1 rows2 = (ps.take 30).map Prod.snd ∧
      ∀ p ∈ ps.take 30, ∀ q ∈ ps.drop 30, selRel p q :=
  c7_amended 1 rows2

/-! ### C10 -/

theorem meanQ_const {l : List ℚ} {c : ℚ} (h : ∀ x ∈ l, x = c) (hne : l ≠ []) :
    meanQ l = c := by
  unfold meanQ
  rw [List.sum_eq_card_nsmul l c h, nsmul_eq_mul]
  have hl : (l.length : ℚ) ≠ 0 :=
    Nat.cast_ne_zero.mpr (fun h' => hne (List.length_eq_zero.mp h'))
  field_simp

theorem varQ_const {l : List ℚ} {c : ℚ} (h : ∀ x ∈ l, x = c) (hne : l ≠ []) :
    varQ l = 0 := by
  unfold varQ
  have hm := meanQ_const h hne
  have h2 : ∀ y ∈ l.map (fun x => (x - meanQ l) ^ 2), y = 0 := by
    intro y hy
    obtain ⟨x, hx, rfl⟩ := List.mem_map.1 hy
    rw [h x hx, hm]
    ring
  have hne2 : l.map (fun x => (x - meanQ l) ^ 2) ≠ [] := by
    simpa using hne
  rw [meanQ_const h2 hne2]

theorem zipWith_agg_none_left :
    ∀ (n : ℕ) (z2 : List Flt),
      aggCol (List.replicate n none) z2 = List.replicate (min n z2.length) none := by
  intro n
  induction n with
  | zero => intro z2; simp [aggCol]
  | succ n ih =>
    intro z2
    cases z2 with
    | nil => simp [aggCol]
    | cons b bs =>
      simp only [List.replicate_succ, aggCol, List.zipWith_cons_cons, List.length_cons,
        Nat.succ_min_succ]
      refine congrArg₂ _ ?_ (ih bs)
      cases b <;> rfl

theorem zipWith_agg_none_right :
    ∀ (n : ℕ) (z2 : List Flt),
      aggCol z2 (List.replicate n none) = List.replicate (min z2.length n) none := by
  intro n
  induction n with
  | zero => intro z2; simp [aggCol]
  | succ n ih =>
    intro z2
    cases z2 with
    | nil => simp [aggCol]
    | cons b bs =>
      simp only [List.replicate_succ, aggCol, List.zipWith_cons_cons, List.length_cons,
        Nat.succ_min_succ]
      refine congrArg₂ _ ?_ (ih bs)
      cases b <;> rfl

/-- C10: when a winsorised factor column is constant, its population
variance is 0, so `np.std` is 0 and the unguarded division makes every
z-score in that column NaN; the NaN propagates through the composite-score
average regardless of the other column.  No error is raised: the scoring
functions are total. -/
theorem c10_degenerate_std (sq : ℚ → ℚ) (l : List ℚ) (z2 : List Flt) (c : ℚ)
    (h0 : sq 0 = 0) (hne : l ≠ []) (hc : ∀ x ∈ l, x = c) :
    varQ l = 0 ∧
    zscoreCol sq l = List.replicate l.length none ∧
    aggCol (zscoreCol sq l) z2 = List.replicate (min l.length z2.length) none ∧
    aggCol z2 (zscoreCol sq l) = List.replicate (min z2.length l.length) none := by
  have hv := varQ_const hc hne
  have hz : zscoreCol sq l = List.replicate l.length none := by
    unfold zscoreCol
    simp only [hv, h0]
    have : ∀ x : ℚ, fdiv (some (x - meanQ l)) (some 0) = none := by
      intro x; simp [fdiv]
    simp only [this]
    simp [List.eq_replicate]
  refine ⟨hv, hz, ?_, ?_⟩
  · rw [hz, zipWith_agg_none_left]
  · rw [hz, zipWith_agg_none_right]

/-- C10 witness: the constant column `[2, 2, 2]` with the float square root
evaluated at 0. -/
theorem c10_degenerate_std_witness :
    varQ [2, 2, 2] = 0 ∧
    zscoreCol sqZero [2, 2, 2] = List.replicate (List.length [2, 2, 2]) none ∧
    aggCol (zscoreCol sqZero [2, 2, 2]) [some 1, none] =
      List.replicate (min (List.length [2, 2, 2]) (List.length [some (1:ℚ), none])) none ∧
    aggCol [some 1, none] (zscoreCol sqZero [2, 2, 2]) =
      List.replicate (min (List.length [some (1:ℚ), none]) (List.length [2, 2, 2])) none := by
  have h := c10_degenerate_std sqZero [2, 2, 2] [some 1, none] 2 rfl
    (by simp) (by intro x hx; fin_cases hx <;> rfl)
  simpa using h



/-! ### C2 amended: what `_limit_cap` writes into `adj_mc` -/

theorem foldl_set_get_of_not_mem (f : ℕ × ℚ → ℚ) :
    ∀ (snap : List (ℕ × ℚ)) (m : List ℚ) (i : ℕ), (∀ q ∈ snap, q.1 ≠ i) →
      (snap.foldl (fun acc q => acc.set q.1 (f q)) m).get? i = m.get? i := by
  intro snap
  induction snap with
  | nil => intro m i _; rfl
  | cons q rest ih =>
    intro m i h
    rw [List.foldl_cons, ih _ _ (fun p hp => h p (List.mem_cons_of_mem _ hp))]
    rw [List.get?_eq_getElem?, List.get?_eq_getElem?, List.getElem?_set,
      if_neg (h q (List.mem_cons_self _ _))]

theorem foldl_set_get_mem (f : ℕ × ℚ → ℚ) :
    ∀ (snap : List (ℕ × ℚ)) (m : List ℚ),
      (snap.map Prod.fst).Pairwise (· < ·) →
      (∀ p ∈ snap, p.1 < m.length) → ∀ p ∈ snap,
      (snap.foldl (fun acc q => acc.set q.1 (f q)) m).get? p.1 = some (f p) := by
  intro snap
  induction snap with
  | nil => intro m _ _ p hp; exact absurd hp (List.not_mem_nil p)
  | cons q rest ih =>
    intro m hpw hbd p hp
    rw [List.map_cons] at hpw
    have hpw' := List.pairwise_cons.1 hpw
    rcases List.mem_cons.1 hp with rfl | hp'
    · rw [List.foldl_cons]
      rw [foldl_set_get_of_not_mem f rest _ p.1 (fun r hr =>
        Nat.ne_of_gt (hpw'.1 r.1 (List.mem_map_of_mem Prod.fst hr)))]
      rw [List.get?_eq_getElem?, List.getElem?_set, if_pos rfl,
        if_pos (hbd p (List.mem_cons_self _ _))]
    · rw [List.foldl_cons]
      refine ih _ hpw'.2 ?_ p hp'
      intro r hr
      rw [List.length_set]
      exact hbd r (List.mem_cons_of_mem _ hr)

theorem mem_overSnapW {cap : ℚ} {w : List Flt} {p : ℕ × ℚ} (h : p ∈ overSnapW cap w) :
    w.get? p.1 = some (some p.2) ∧ cap < p.2 := by
  unfold overSnapW at h
  simp only [List.mem_filterMap, List.mem_range] at h
  obtain ⟨i, _, hg⟩ := h
  cases hw : w.get? i with
  | none => rw [hw] at hg; simp at hg
  | some x =>
    rw [hw] at hg
    cases x with
    | none => simp at hg
    | some a =>
      by_cases hca : cap < a
      · simp only [Option.some_bind, if_pos hca] at hg
        obtain rfl := Option.some.inj hg
        exact ⟨hw, hca⟩
      · simp only [Option.some_bind, if_neg hca] at hg
        exact absurd hg (by simp)

theorem mem_overSnapMc {cap : ℚ} {mcW : List Flt} {adjMc : List ℚ} {p : ℕ × ℚ}
    (h : p ∈ overSnapMc cap mcW adjMc) :
    adjMc.get? p.1 = some p.2 ∧ ∃ x, mcW.get? p.1 = some x ∧ fgt x cap = true := by
  unfold overSnapMc at h
  simp only [List.mem_filterMap, List.mem_range] at h
  obtain ⟨i, _, hg⟩ := h
  cases hw : mcW.get? i with
  | none => rw [hw] at hg; simp at hg
  | some x =>
    rw [hw] at hg
    by_cases hca : fgt x cap
    · simp only [Option.some_bind, if_pos hca] at hg
      cases ha : adjMc.get? i with
      | none => rw [ha] at hg; simp at hg
      | some v =>
        rw [ha] at hg
        obtain rfl := Option.some.inj hg
        exact ⟨ha, x, hw, hca⟩
    · simp only [Option.some_bind, if_neg hca] at hg
      exact absurd hg (by simp)

theorem filterMap_range_fst_pairwise (f : ℕ → Option (ℕ × ℚ)) (n : ℕ)
    (hf : ∀ i p, f i = some p → p.1 = i) :
    (((List.range n).filterMap f).map Prod.fst).Pairwise (· < ·) := by
  refine List.Pairwise.map _ (fun a b h => h) ?_
  refine List.pairwise_filterMap.2 ?_
  refine (List.pairwise_lt_range n).imp_of_mem ?_
  intro i j _ _ hij x hx y hy
  have hx' : f i = some x := Option.mem_def.1 hx
  have hy' : f j = some y := Option.mem_def.1 hy
  show x.1 < y.1
  rw [hf i x hx', hf j y hy']
  exact hij

theorem overSnapW_fst_eq {cap : ℚ} {w : List Flt} (i : ℕ) (p : ℕ × ℚ)
    (h : ((w.get? i).bind (fun x => x.bind (fun a =>
      if cap < a then some (i, a) else none))) = some p) : p.1 = i := by
  cases hw : w.get? i with
  | none => rw [hw] at h; simp at h
  | some x =>
    rw [hw] at h
    cases x with
    | none => simp at h
    | some a =>
      by_cases hca : cap < a
      · simp only [Option.some_bind, if_pos hca] at h
        obtain rfl := Option.some.inj h
        rfl
      · simp only [Option.some_bind, if_neg hca] at h
        exact absurd h (by simp)

theorem overSnapMc_fst_eq {cap : ℚ} {mcW : List Flt} {adjMc : List ℚ} (i : ℕ) (p : ℕ × ℚ)
    (h : ((mcW.get? i).bind (fun x =>
      if fgt x cap then (adjMc.get? i).map (fun v => (i, v)) else none)) = some p) :
    p.1 = i := by
  cases hw : mcW.get? i with
  | none => rw [hw] at h; simp at h
  | some x =>
    rw [hw] at h
    by_cases hca : fgt x cap
    · simp only [Option.some_bind, if_pos hca] at h
      cases ha : adjMc.get? i with
      | none => rw [ha] at h; simp at h
      | some v =>
        rw [ha] at h
        obtain rfl := Option.some.inj h
        rfl
    · simp only [Option.some_bind, if_neg hca] at h
      exact absurd h (by simp)

theorem overSnapW_fst_pairwise (cap : ℚ) (w : List Flt) :
    ((overSnapW cap w).map Prod.fst).Pairwise (· < ·) :=
  filterMap_range_fst_pairwise _ _ (fun i p h => overSnapW_fst_eq i p h)

theorem overSnapMc_fst_pairwise (cap : ℚ) (mcW : List Flt) (adjMc : List ℚ) :
    ((overSnapMc cap mcW adjMc).map Prod.fst).Pairwise (· < ·) :=
  filterMap_range_fst_pairwise _ _ (fun i p h => overSnapMc_fst_eq i p h)

/-- C2 amended: in the first capping iteration each over-cap ticker's new
`adj_mc` is `(1/n_over)` times its own current `adj_mc` (the snapshot's last
column is `adj_mc`), but in every subsequent iteration it is `(1/n_over)`
times its own current *rounded adjusted weight*: once `_limit_cap` has
appended the `adj_mc_weight` column, `rows[-1]` reads that column
instead. -/
theorem c2_amended (cap : ℚ) (mcW w : List Flt) (adjMc : List ℚ)
    (hb1 : ∀ p ∈ overSnapMc cap mcW adjMc, p.1 < adjMc.length)
    (hb2 : ∀ p ∈ overSnapW cap w, p.1 < adjMc.length) :
    (∀ p ∈ overSnapMc cap mcW adjMc,
      adjMc.get? p.1 = some p.2 ∧
      (limitCap cap (overSnapMc cap mcW adjMc) adjMc).1.get? p.1 =
        some ((1 / (((overSnapMc cap mcW adjMc).length : ℚ))) * p.2)) ∧
    (∀ p ∈ overSnapW cap w,
      w.get? p.1 = some (some p.2) ∧ cap < p.2 ∧
      (limitCap cap (overSnapW cap w) adjMc).1.get? p.1 =
        some ((1 / (((overSnapW cap w).length : ℚ))) * p.2)) := by
  constructor
  · intro p hp
    refine ⟨(mem_overSnapMc hp).1, ?_⟩
    exact foldl_set_get_mem _ _ _ (overSnapMc_fst_pairwise cap mcW adjMc) hb1 p hp
  · intro p hp
    refine ⟨(mem_overSnapW hp).1, (mem_overSnapW hp).2, ?_⟩
    exact foldl_set_get_mem _ _ _ (overSnapW_fst_pairwise cap w) hb2 p hp

set_option maxRecDepth 10000 in
/-- C2 witness: the amended update rule at the concrete `mc4x` run. -/
theorem c2_amended_witness :
    (∀ p ∈ overSnapMc (3/20) (mcWeights mc4x) mc4x,
      mc4x.get? p.1 = some p.2 ∧
      (limitCap (3/20) (overSnapMc (3/20) (mcWeights mc4x) mc4x) mc4x).1.get? p.1 =
        some ((1 / (((overSnapMc (3/20) (mcWeights mc4x) mc4x).length : ℚ))) * p.2)) ∧
    (∀ p ∈ overSnapW (3/20) c2it1.2,
      c2it1.2.get? p.1 = some (some p.2) ∧ (3/20 : ℚ) < p.2 ∧
      (limitCap (3/20) (overSnapW (3/20) c2it1.2) mc4x).1.get? p.1 =
        some ((1 / (((overSnapW (3/20) c2it1.2).length : ℚ))) * p.2)) :=
  c2_amended (3/20) (mcWeights mc4x) c2it1.2 mc4x
    (by with_unfolding_all decide) (by with_unfolding_all decide)



/-! ### C3 amended -/

theorem winsVals_pairwise (v : List ℚ) :
    (winsVals v).Pairwise (fun a b : ℚ => b ≤ a) := by
  unfold winsVals winsSorted
  refine List.Pairwise.map _ ?_ (List.sorted_insertionSort winsRel (v.enum))
  intro p q hpq
  rcases hpq with h | ⟨h, _⟩
  · exact le_of_lt h
  · exact le_of_eq h.symm

theorem winsVals_length (v : List ℚ) : (winsVals v).length = v.length := by
  unfold winsVals winsSorted
  rw [List.length_map, List.length_insertionSort, List.enum_length]

theorem winsVals_anti (v : List ℚ) {i j : ℕ} (hi : i < (winsVals v).length)
    (hj : j < (winsVals v).length) (hij : i ≤ j) :
    (winsVals v).get ⟨j, hj⟩ ≤ (winsVals v).get ⟨i, hi⟩ := by
  rcases eq_or_lt_of_le hij with rfl | hlt
  · exact le_refl _
  · exact List.pairwise_iff_get.1 (winsVals_pairwise v) ⟨i, hi⟩ ⟨j, hj⟩ hlt

/-- C3 amended: for any factor column with at least 4 rows and any
`alpha` in (0, 1/2), winsorisation succeeds; every winsorised value lies in
`[min s_ub s_3, max s_lb s_3]` — the high tail is clipped to the value at
the fixed descending rank 3 (`iloc[3]`), not the value at rank `lb`, so it
can exceed the `lb` cutoff — and every value whose rank lies in the
interior `[lb, ub)` is unchanged. -/
theorem c3_amended (alpha : ℚ) (v : List ℚ)
    (ha0 : 0 < alpha) (ha1 : alpha < 1 / 2) (h4 : 4 ≤ v.length) :
    ∃ m s3 slb sub,
      winsModified alpha v = .ok m ∧
      (winsVals v).get? 3 = some s3 ∧
      (winsVals v).get? (lbOf alpha v.length) = some slb ∧
      (winsVals v).get? (ubOf alpha v.length) = some sub ∧
      (∀ y ∈ m.map Prod.snd, min sub s3 ≤ y ∧ y ≤ max slb s3) ∧
      (∀ r, lbOf alpha v.length ≤ r → r < ubOf alpha v.length →
        (m.map Prod.snd).get? r = (winsVals v).get? r) := by
  have hn0 : (0 : ℚ) < (v.length : ℚ) := by
    have : (4 : ℚ) ≤ (v.length : ℚ) := by exact_mod_cast h4
    linarith
  have hub_lt : ubOf alpha v.length < v.length := by
    unfold ubOf
    rw [Int.toNat_lt (Int.floor_nonneg.2 (by nlinarith))]
    exact Int.floor_lt.2 (by push_cast; nlinarith)
  have hlb_le : lbOf alpha v.length ≤ ubOf alpha v.length :=
    Int.toNat_le_toNat (Int.floor_le_floor (by nlinarith))
  have hlb_lt : lbOf alpha v.length < v.length := lt_of_le_of_lt hlb_le hub_lt
  have h3lt : 3 < (winsVals v).length := by rw [winsVals_length]; omega
  have hlb_lt' : lbOf alpha v.length < (winsVals v).length := by rw [winsVals_length]; omega
  have hub_lt' : ubOf alpha v.length < (winsVals v).length := by rw [winsVals_length]; omega
  have hg3 := List.get?_eq_get h3lt
  have hglb := List.get?_eq_get hlb_lt'
  have hgub := List.get?_eq_get hub_lt'
  refine ⟨(winsSorted v).enum.map (fun ri =>
      (ri.2.1, if ri.1 < lbOf alpha v.length then (winsVals v).get ⟨3, h3lt⟩
        else if ubOf alpha v.length ≤ ri.1 then (winsVals v).get ⟨ubOf alpha v.length, hub_lt'⟩
        else ri.2.2)),
    (winsVals v).get ⟨3, h3lt⟩, (winsVals v).get ⟨lbOf alpha v.length, hlb_lt'⟩,
    (winsVals v).get ⟨ubOf alpha v.length, hub_lt'⟩, ?_, hg3, hglb, hgub, ?_, ?_⟩
  · unfold winsModified
    simp only [hg3, hgub]
  · intro y hy
    rw [List.map_map] at hy
    obtain ⟨ri, hri, rfl⟩ := List.mem_map.1 hy
    simp only [Function.comp_apply]
    have hmem := List.mem_enum_iff_getElem?.1 hri
    have hr_lt : ri.1 < (winsVals v).length := by
      rw [winsVals_length]
      have := List.getElem?_eq_some.1 hmem
      obtain ⟨hlt, _⟩ := this
      unfold winsSorted at hlt
      rw [List.length_insertionSort, List.enum_length] at hlt
      exact hlt
    have hval : (winsVals v).get ⟨ri.1, hr_lt⟩ = ri.2.2 := by
      have : (winsVals v).get? ri.1 = some ri.2.2 := by
        unfold winsVals
        rw [List.get?_eq_getElem?, List.getElem?_map, hmem]
        rfl
      rw [List.get?_eq_get hr_lt] at this
      exact Option.some.inj this
    by_cases hc1 : ri.1 < lbOf alpha v.length
    · simp only [hc1, if_true, if_pos]
      constructor
      · exact min_le_right _ _
      · exact le_max_right _ _
    · by_cases hc2 : ubOf alpha v.length ≤ ri.1
      · simp only [hc1, if_false, hc2, if_true]
        constructor
        · exact min_le_left _ _
        · exact le_trans (winsVals_anti v hlb_lt' hub_lt' hlb_le) (le_max_left _ _)
      · simp only [hc1, if_false, hc2]
        constructor
        · refine le_trans (min_le_left _ _) ?_
          rw [← hval]
          exact winsVals_anti v hr_lt hub_lt' (by omega)
        · refine le_trans ?_ (le_max_left _ _)
          rw [← hval]
          exact winsVals_anti v hlb_lt' hr_lt (by omega)
  · intro r h1 h2
    have hr_lt : r < (winsSorted v).length := by
      unfold winsSorted
      rw [List.length_insertionSort, List.enum_length]
      omega
    have hpr := List.get?_eq_get hr_lt
    set pr := (winsSorted v).get ⟨r, hr_lt⟩ with hprdef
    rw [List.get?_eq_getElem?] at hpr
    rw [List.get?_eq_getElem?, List.getElem?_map, List.getElem?_map, List.getElem?_enum, hpr]
    have hrhs : (winsVals v).get? r = some pr.2 := by
      unfold winsVals
      rw [List.get?_eq_getElem?, List.getElem?_map, hpr]
      rfl
    rw [hrhs]
    simp only [Option.map_some']
    rw [if_neg (by omega), if_neg (by omega)]



/-- C3 witness: the amended bounds at the concrete 20-row column. -/
theorem c3_amended_witness :
    ∃ m s3 slb sub,
      winsModified (1/4) v20 = .ok m ∧
      (winsVals v20).get? 3 = some s3 ∧
      (winsVals v20).get? (lbOf (1/4) v20.length) = some slb ∧
      (winsVals v20).get? (ubOf (1/4) v20.length) = some sub ∧
      (∀ y ∈ m.map Prod.snd, min sub s3 ≤ y ∧ y ≤ max slb s3) ∧
      (∀ r, lbOf (1/4) v20.length ≤ r → r < ubOf (1/4) v20.length →
        (m.map Prod.snd).get? r = (winsVals v20).get? r) :=
  c3_amended (1/4) v20 (by norm_num) (by norm_num) (by with_unfolding_all decide)



/-! ### C6 amended: invariants of the terminated weighting stage -/

theorem rnd_close (x : ℚ) : |((rnd x : ℤ) : ℚ) - x| ≤ 1 / 2 := by
  have hf := Int.floor_le x
  have hf1 := Int.lt_floor_add_one x
  unfold rnd
  split_ifs with h1 h2 h3 <;> rw [abs_sub_le_iff] <;> constructor <;> push_cast <;> linarith

theorem roundTo_close (x : ℚ) : |roundTo 3 x - x| ≤ 1 / 2000 := by
  have h := rnd_close (x * 10 ^ 3)
  have h2 : roundTo 3 x - x = (((rnd (x * 10 ^ 3) : ℤ) : ℚ) - x * 10 ^ 3) / 10 ^ 3 := by
    unfold roundTo; ring
  rw [h2, abs_div, show |((10 : ℚ) ^ 3)| = 10 ^ 3 by norm_num, div_le_iff (by norm_num)]
  calc |((rnd (x * 10 ^ 3) : ℤ) : ℚ) - x * 10 ^ 3| ≤ 1 / 2 := h
  _ ≤ 1 / 2000 * 10 ^ 3 := by norm_num

theorem sum_map_roundTo_close :
    ∀ (l : List ℚ), |(l.map (roundTo 3)).sum - l.sum| ≤ (l.length : ℚ) * (1 / 2000) := by
  intro l
  induction l with
  | nil => simp
  | cons a as ih =>
    simp only [List.map_cons, List.sum_cons, List.length_cons]
    have h1 := roundTo_close a
    have habs : |roundTo 3 a + (as.map (roundTo 3)).sum - (a + as.sum)| ≤
        |roundTo 3 a - a| + |(as.map (roundTo 3)).sum - as.sum| := by
      have h := abs_add (roundTo 3 a - a) ((as.map (roundTo 3)).sum - as.sum)
      calc |roundTo 3 a + (as.map (roundTo 3)).sum - (a + as.sum)|
          = |(roundTo 3 a - a) + ((as.map (roundTo 3)).sum - as.sum)| := by ring_nf
        _ ≤ _ := h
    refine le_trans habs ?_
    push_cast
    linarith

theorem sum_map_div (l : List ℚ) (t : ℚ) : (l.map (fun a => a / t)).sum = l.sum / t := by
  induction l with
  | nil => simp
  | cons a as ih => simp [ih, add_div]

theorem mem_set_cases : ∀ (l : List ℚ) (i : ℕ) (v a : ℚ), a ∈ l.set i v → a = v ∨ a ∈ l := by
  intro l
  induction l with
  | nil => intro i v a h; exact absurd h (List.not_mem_nil a)
  | cons b bs ih =>
    intro i v a h
    cases i with
    | zero =>
      rcases List.mem_cons.1 h with rfl | h'
      · exact Or.inl rfl
      · exact Or.inr (List.mem_cons_of_mem _ h')
    | succ i =>
      rcases List.mem_cons.1 h with rfl | h'
      · exact Or.inr (List.mem_cons_self _ _)
      · rcases ih i v a h' with h'' | h''
        · exact Or.inl h''
        · exact Or.inr (List.mem_cons_of_mem _ h'')

theorem foldl_set_pos (c : ℚ) (hc : 0 < c) :
    ∀ (snap : List (ℕ × ℚ)) (adjMc : List ℚ), (∀ p ∈ snap, 0 < p.2) →
      (∀ a ∈ adjMc, 0 < a) →
      ∀ a ∈ snap.foldl (fun acc p => acc.set p.1 (c * p.2)) adjMc, 0 < a := by
  intro snap
  induction snap with
  | nil => intro adjMc _ h a ha; exact h a ha
  | cons q rest ih =>
    intro adjMc hs h a ha
    rw [List.foldl_cons] at ha
    refine ih _ (fun p hp => hs p (List.mem_cons_of_mem _ hp)) ?_ a ha
    intro b hb
    rcases mem_set_cases _ _ _ _ hb with rfl | hb'
    · exact mul_pos hc (hs q (List.mem_cons_self _ _))
    · exact h b hb'

theorem foldl_set_length :
    ∀ (snap : List (ℕ × ℚ)) (adjMc : List ℚ) (g : ℕ × ℚ → ℚ),
      (snap.foldl (fun acc p => acc.set p.1 (g p)) adjMc).length = adjMc.length := by
  intro snap
  induction snap with
  | nil => intro adjMc g; rfl
  | cons q rest ih =>
    intro adjMc g
    rw [List.foldl_cons, ih, List.length_set]

theorem sumFlt_map_some (g : ℚ → ℚ) :
    ∀ (l : List ℚ), sumFlt (l.map (fun a => some (g a))) = some ((l.map g).sum) := by
  intro l
  induction l with
  | nil => simp [sumFlt]
  | cons a as ih =>
    simp only [List.map_cons, sumFlt, List.foldr_cons] at ih ⊢
    rw [ih, fadd, List.sum_cons]

theorem overSnapW_empty_no_over {cap : ℚ} {w : List Flt} (h : overSnapW cap w = []) :
    ∀ x ∈ w, fgt x cap = false := by
  intro x hx
  obtain ⟨i, hi⟩ := List.mem_iff_get?.1 hx
  cases x with
  | none => rfl
  | some a =>
    by_contra hne
    have hca : cap < a := by
      have : fgt (some a) cap = true := by
        cases hfg : fgt (some a) cap
        · exact absurd hfg hne
        · rfl
      unfold fgt at this
      exact of_decide_eq_true this
    have hmem : (i, a) ∈ overSnapW cap w := by
      unfold overSnapW
      refine List.mem_filterMap.2 ⟨i, List.mem_range.2 ?_, ?_⟩
      · obtain ⟨hlt, _⟩ := List.get?_eq_some.1 hi
        exact hlt
      · rw [hi]
        simp [hca]
    rw [h] at hmem
    exact absurd hmem (List.not_mem_nil _)

theorem capIter_ok_props (cap : ℚ) (hcap : 0 < cap) :
    ∀ (f : ℕ) (snap : List (ℕ × ℚ)) (adjMc : List ℚ) (w : List Flt),
      snap ≠ [] → (∀ p ∈ snap, 0 < p.2) → adjMc ≠ [] → (∀ a ∈ adjMc, 0 < a) →
      capIter cap f snap adjMc = .ok w →
      (∀ x ∈ w, fgt x cap = false) ∧
      ∃ s, sumFlt w = some s ∧ |s - 1| ≤ (w.length : ℚ) * (1 / 2000) := by
  intro f
  induction f with
  | zero =>
    intro snap adjMc w _ _ _ _ h
    exact absurd h (by simp [capIter])
  | succ f ih =>
    intro snap adjMc w hsne hsp hane hap h
    have hn1 : 0 < snap.length := List.length_pos.2 hsne
    have hc : 0 < 1 / (snap.length : ℚ) := by positivity
    have hpos' : ∀ a ∈ limitCapAdj snap adjMc, 0 < a :=
      foldl_set_pos _ hc snap adjMc hsp hap
    have hlen' : (limitCapAdj snap adjMc).length = adjMc.length :=
      foldl_set_length snap adjMc _
    have hane' : limitCapAdj snap adjMc ≠ [] := by
      rw [← List.length_pos, hlen']
      exact List.length_pos.2 hane
    have htot : 0 < (limitCapAdj snap adjMc).sum := List.sum_pos _ hpos' hane'
    have hw2 : (limitCap cap snap adjMc).2 =
        (limitCapAdj snap adjMc).map
          (fun a => some (roundTo 3 (a / (limitCapAdj snap adjMc).sum))) := by
      unfold limitCap
      refine List.map_congr_left ?_
      intro a _
      simp only [fdiv]
      rw [if_neg (ne_of_gt htot)]
      rfl
    unfold capIter at h
    by_cases hov : (overSnapW cap (limitCap cap snap adjMc).2).isEmpty
    · rw [if_pos hov] at h
      obtain rfl := Except.ok.inj h
      constructor
      · exact overSnapW_empty_no_over (List.isEmpty_iff.1 hov)
      · rw [hw2, sumFlt_map_some]
        refine ⟨_, rfl, ?_⟩
        rw [List.length_map]
        have hdiv : ((limitCapAdj snap adjMc).map
            (fun a => a / (limitCapAdj snap adjMc).sum)).sum = 1 := by
          rw [sum_map_div, div_self (ne_of_gt htot)]
        have hb := sum_map_roundTo_close
          ((limitCapAdj snap adjMc).map (fun a => a / (limitCapAdj snap adjMc).sum))
        rw [List.map_map, hdiv, List.length_map] at hb
        exact hb
    · rw [if_neg hov] at h
      have hne2 : overSnapW cap (limitCap cap snap adjMc).2 ≠ [] := by
        intro hnil
        rw [hnil] at hov
        exact hov rfl
      refine ih _ _ _ hne2 ?_ hane' hpos' h
      intro p hp
      exact lt_trans hcap (mem_overSnapW hp).2



/-- C6 amended: whenever the weighting stage returns with the capping loop
having terminated (`adj_mc_weight` column present) on positive market caps,
no emitted weight exceeds the cap (the loop's exit condition), and the
weights sum to within `n/2000` of 1.0 — for the 30-stock index that is
0.015, not the 0.01 the claim states (30 roundings to 3 decimals each
contribute up to 0.0005). -/
theorem c6_amended (cap : ℚ) (fuel : ℕ) (u : Universe) (sel : List String)
    (out : WOut) (w : List Flt) (hcap : 0 < cap)
    (hok : getEachWeight cap fuel u sel = .ok out)
    (hmc : ∀ m ∈ out.mc, 0 < m) (hw : out.adjW = some w) :
    (∀ x ∈ w, fgt x cap = false) ∧
    ∃ s, sumFlt w = some s ∧ |s - 1| ≤ (w.length : ℚ) * (1 / 2000) := by
  unfold getEachWeight at hok
  split at hok
  · exact absurd hok (by simp)
  · rename_i mc heq
    split at hok
    · rename_i hany
      split at hok
      · exact absurd hok (by simp)
      · rename_i w0 hcap0
        obtain rfl := (Except.ok.inj hok).symm
        simp only at hmc hw
        obtain rfl := Option.some.inj hw
        obtain ⟨x, hx, hfgt⟩ := List.any_eq_true.1 hany
        obtain ⟨i, hi⟩ := List.mem_iff_get?.1 hx
        have hilt : i < mc.length := by
          obtain ⟨hlt, _⟩ := List.get?_eq_some.1 hi
          rw [mcWeights, List.length_map] at hlt
          exact hlt
        have hgetmc := List.get?_eq_get hilt
        have hmem : (i, mc.get ⟨i, hilt⟩) ∈ overSnapMc cap (mcWeights mc) mc := by
          unfold overSnapMc
          refine List.mem_filterMap.2 ⟨i, List.mem_range.2 ?_, ?_⟩
          · rw [mcWeights, List.length_map]; exact hilt
          · rw [hi, Option.some_bind, if_pos hfgt, hgetmc, Option.map_some']
        refine capIter_ok_props cap hcap fuel _ mc w0
          (List.ne_nil_of_mem hmem) ?_ ?_ hmc hcap0
        · intro p hp
          have := (mem_overSnapMc hp).1
          exact hmc p.2 (List.get?_mem this)
        · intro hnil
          rw [hnil] at hilt
          exact absurd hilt (by simp)
    · obtain rfl := (Except.ok.inj hok).symm
      simp only at hw
      exact absurd hw (by simp)



set_option maxRecDepth 10000 in
/-- C6 witness: the amended bound at the concrete 30-constituent run. -/
theorem c6_amended_witness :
    (∀ x ∈ w30, fgt x (15/100) = false) ∧
    ∃ s, sumFlt w30 = some s ∧ |s - 1| ≤ (w30.length : ℚ) * (1 / 2000) :=
  c6_amended (15/100) 5 u30 sel30 out30 w30 (by norm_num)
    (by with_unfolding_all decide) (by with_unfolding_all decide)
    (by with_unfolding_all decide)



/-! ### C9: missing-factor tickers are dropped and never reach the output -/

theorem adjTicker_inj {a b : String} (h : adjTicker a = adjTicker b) : a = b := by
  unfold adjTicker at h
  have hd := congrArg String.data h
  rw [String.data_append, String.data_append] at hd
  exact String.ext (List.append_inj' hd rfl).1

theorem generateDfFactors_tickers_sublist :
    ∀ u : Universe,
      ((generateDfFactors u).map Row.ticker).Sublist (u.map (fun e => adjTicker e.code)) := by
  intro u
  induction u with
  | nil => simp [generateDfFactors]
  | cons e es ih =>
    unfold generateDfFactors at ih ⊢
    rw [List.filterMap_cons, List.map_cons]
    cases h1 : lookupField e.info "trailingPE" with
    | none =>
      simp only [h1]
      exact ih.cons _
    | some pe =>
      cases h2 : lookupField e.info "priceToBook" with
      | none =>
        simp only [h1, h2]
        exact ih.cons _
      | some pbv =>
        simp only [h1, h2, List.map_cons]
        exact ih.cons₂ _

theorem mem_selectStocks {k : ℕ} {rows : List SRow} {x : SRow}
    (h : x ∈ selectStocks k rows) : x ∈ rows := by
  unfold selectStocks at h
  obtain ⟨p, hp, rfl⟩ := List.mem_map.1 (List.mem_of_mem_take h)
  have hp2 := (List.perm_insertionSort selRel (rows.enum)).mem_iff.1 hp
  have hp3 := List.mem_map_of_mem Prod.snd hp2
  rw [List.enum_map_snd] at hp3
  exact hp3

theorem buildSRows_ticker_mem :
    ∀ (tbl : List Row) (a b : List ℚ) (c d e : List Flt) (r : SRow),
      r ∈ buildSRows tbl a b c d e → r.ticker ∈ tbl.map Row.ticker := by
  intro tbl
  induction tbl with
  | nil =>
    intro a b c d e r h
    cases a <;> cases b <;> cases c <;> cases d <;> cases e <;>
      exact absurd h (List.not_mem_nil r)
  | cons r' rs ih =>
    intro a b c d e r h
    cases a <;> cases b <;> cases c <;> cases d <;> cases e <;>
      first
        | exact absurd h (List.not_mem_nil r)
        | (rcases List.mem_cons.1 h with rfl | h'
           · rw [List.map_cons]
             exact List.mem_cons_self _ _
           · rw [List.map_cons]
             exact List.mem_cons_of_mem _ (ih _ _ _ _ _ _ h'))

theorem rowsToScored_ok {sq : ℚ → ℚ} {tbl : List Row} {scored : List SRow}
    (h : rowsToScored sq tbl = .ok scored) :
    ∃ wpe wpbv, scored = buildSRows tbl wpe wpbv (zscoreCol sq wpe) (zscoreCol sq wpbv)
      (aggCol (zscoreCol sq wpe) (zscoreCol sq wpbv)) := by
  unfold rowsToScored at h
  split at h
  · exact absurd h (by simp)
  · rename_i wpe h1
    split at h
    · exact absurd h (by simp)
    · rename_i wpbv h2
      exact ⟨wpe, wpbv, (Except.ok.inj h).symm⟩

/-- C9: a ticker whose provider data is missing a required factor is dropped
from the factor table (whose rows keep the universe order: its ticker column
is a sublist of the adjusted universe tickers), and never appears in any
successful output of `generate_index`.  The factor-table build itself is a
total function (`generateDfFactors`): the provider error is swallowed, not
propagated. -/
theorem c9_missing_factor_dropped (sq : ℚ → ℚ) (fuel : ℕ) (u : Universe) (e : Entry)
    (hnd : (u.map Entry.code).Nodup) (he : e ∈ u)
    (hmiss : lookupField e.info "trailingPE" = none ∨
      lookupField e.info "priceToBook" = none) :
    adjTicker e.code ∉ (generateDfFactors u).map Row.ticker ∧
    ((generateDfFactors u).map Row.ticker).Sublist (u.map (fun x => adjTicker x.code)) ∧
    ∀ r, generateIndex sq fuel u = .ok r → adjTicker e.code ∉ r.map Prod.fst := by
  have hnotin : adjTicker e.code ∉ (generateDfFactors u).map Row.ticker := by
    intro hmem
    obtain ⟨row, hrow, hticker⟩ := List.mem_map.1 hmem
    obtain ⟨e', he', hfe'⟩ := List.mem_filterMap.1 hrow
    cases h1 : lookupField e'.info "trailingPE" with
    | none => rw [h1] at hfe'; simp at hfe'
    | some pe =>
      cases h2 : lookupField e'.info "priceToBook" with
      | none => rw [h1, h2] at hfe'; simp at hfe'
      | some pbv =>
        rw [h1, h2] at hfe'
        obtain rfl := Option.some.inj hfe'
        have hcode : e'.code = e.code := adjTicker_inj hticker
        have he'e : e' = e := List.inj_on_of_nodup_map hnd he' he hcode
        subst he'e
        rcases hmiss with hm | hm
        · rw [h1] at hm; exact Option.noConfusion hm
        · rw [h2] at hm; exact Option.noConfusion hm
  refine ⟨hnotin, generateDfFactors_tickers_sublist u, ?_⟩
  intro r hok hmem
  unfold generateIndex at hok
  split at hok
  · exact absurd hok (by simp)
  · rename_i sel hsel
    split at hok
    · exact absurd hok (by simp)
    · rename_i wout hwout
      split at hok
      · exact absurd hok (by simp)
      · rename_i w hw
        obtain rfl := (Except.ok.inj hok).symm
        obtain ⟨tf, hzip, hfst⟩ := List.mem_map.1 hmem
        have hmem2 := (List.of_mem_zip hzip).1
        obtain ⟨srow, hsrow, hticker⟩ := List.mem_map.1 hmem2
        unfold selectionStage at hsel
        split at hsel
        · exact absurd hsel (by simp)
        · rename_i scored hscored
          obtain rfl := (Except.ok.inj hsel).symm
          have hsrow2 := mem_selectStocks hsrow
          obtain ⟨wpe, wpbv, rfl⟩ := rowsToScored_ok hscored
          have hmem3 := buildSRows_ticker_mem _ _ _ _ _ _ _ hsrow2
          rw [hticker] at hmem3
          rw [show tf.1 = adjTicker e.code from hfst] at hmem3
          exact hnotin hmem3

set_option maxRecDepth 10000 in
/-- C9 witness: the nine-entry universe whose entry `B0` has no
`trailingPE`. -/
theorem c9_missing_factor_dropped_witness :
    adjTicker "B0" ∉ (generateDfFactors u9).map Row.ticker ∧
    ((generateDfFactors u9).map Row.ticker).Sublist (u9.map (fun x => adjTicker x.code)) ∧
    ∀ r, generateIndex sqZero 2 u9 = .ok r → adjTicker "B0" ∉ r.map Prod.fst := by
  have h := c9_missing_factor_dropped sqZero 2 u9
    ⟨"B0", [("priceToBook", 2), ("marketCap", 100), ("floatShares", 1),
            ("sharesOutstanding", 1)]⟩
    (by with_unfolding_all decide) (by with_unfolding_all decide)
    (Or.inl (by with_unfolding_all decide))
  exact h



/-! ### C8 amended: propagation and shape of weighting-stage failures -/

theorem weightOf_err_not_mdu {info : Info} {er : PipeErr}
    (h : weightOf info = .error er) : isMDU er = false := by
  unfold weightOf at h
  split at h
  · obtain rfl := (Except.error.inj h); rfl
  · split at h
    · obtain rfl := (Except.error.inj h); rfl
    · split at h
      · obtain rfl := (Except.error.inj h); rfl
      · split at h
        · obtain rfl := (Except.error.inj h); rfl
        · exact absurd h (by simp)

theorem fetchMc_err_not_mdu (u : Universe) :
    ∀ (sel : List String) (e : PipeErr), fetchMc u sel = .error e → isMDU e = false := by
  intro sel
  induction sel with
  | nil => intro e h; exact absurd h (by simp [fetchMc])
  | cons t ts ih =>
    intro e h
    unfold fetchMc at h
    split at h
    · obtain rfl := (Except.error.inj h); rfl
    · rename_i entry hfind
      split at h
      · rename_i er hwo
        obtain rfl := (Except.error.inj h)
        exact weightOf_err_not_mdu hwo
      · rename_i m hwo
        cases hrec : fetchMc u ts with
        | error e' =>
          rw [hrec] at h
          obtain rfl := (Except.error.inj h)
          exact ih e' hrec
        | ok ms =>
          rw [hrec] at h
          exact absurd h (by simp [Except.map])

theorem capIter_err_out_of_fuel (cap : ℚ) :
    ∀ (f : ℕ) (snap : List (ℕ × ℚ)) (adjMc : List ℚ) (e : PipeErr),
      capIter cap f snap adjMc = .error e → e = .outOfFuel := by
  intro f
  induction f with
  | zero =>
    intro snap adjMc e h
    exact (Except.error.inj h).symm
  | succ f ih =>
    intro snap adjMc e h
    unfold capIter at h
    by_cases hov : (overSnapW cap (limitCap cap snap adjMc).2).isEmpty
    · rw [if_pos hov] at h
      exact absurd h (by simp)
    · rw [if_neg hov] at h
      exact ih _ _ _ h

theorem getEachWeight_err_not_mdu {cap : ℚ} {fuel : ℕ} {u : Universe}
    {sel : List String} {e : PipeErr}
    (h : getEachWeight cap fuel u sel = .error e) : isMDU e = false := by
  unfold getEachWeight at h
  split at h
  · rename_i e' hf
    obtain rfl := (Except.error.inj h)
    exact fetchMc_err_not_mdu u sel e' hf
  · rename_i mc hf
    split at h
    · split at h
      · rename_i e' hc
        obtain rfl := (Except.error.inj h)
        rw [capIter_err_out_of_fuel cap fuel _ mc e' hc]
        rfl
      · exact absurd h (by simp)
    · exact absurd h (by simp)

/-- C8 amended: a market-data failure in the weighting stage aborts the
whole run with the provider's raw error (no partial index is emitted), and
that error is never the spec's `MarketDataUnavailable` condition: it is a
`KeyError` naming the missing field (or a `ZeroDivisionError` /
`ValueError`), not an error identifying the offending ticker. -/
theorem c8_amended (sq : ℚ → ℚ) (fuel : ℕ) (u : Universe) (sel : List SRow) (e : PipeErr)
    (hsel : selectionStage sq u = .ok sel)
    (hw : getEachWeight (15 / 100) fuel u (sel.map SRow.ticker) = .error e) :
    generateIndex sq fuel u = .error e ∧ isMDU e = false := by
  constructor
  · unfold generateIndex
    simp only [hsel, hw]
  · exact getEachWeight_err_not_mdu hw

set_option maxRecDepth 10000 in
/-- C8 witness: the failure surface at the concrete `u8` run. -/
theorem c8_amended_witness :
    generateIndex sqZero 1 u8 = .error (.keyError "marketCap") ∧
    isMDU (.keyError "marketCap") = false :=
  c8_amended sqZero 1 u8 sel8 (.keyError "marketCap")
    (by with_unfolding_all decide) (by with_unfolding_all decide)


end IDXV30
